import Mathlib

/-!
Shallow embedding of the `techno-weights` program (src/main.rs): the
"12 masses, one odd, 3 weighings" balance-scale puzzle.

Strings read from stdin are modelled as `List Char`; the random index
chosen by `rand::thread_rng().gen_range(0..12)` is modelled as an explicit
`Nat` parameter.  All functions are translated from the Rust source.
-/

set_option autoImplicit false

namespace TechnoWeights

/-- `enum MassWeight` from src/main.rs. -/
inductive MassWeight where
  | Different
  | Same
  deriving DecidableEq, Repr

/-- `struct Mass` from src/main.rs. -/
structure Mass where
  name : Char
  weight : MassWeight
  deriving DecidableEq, Repr

/-- `enum Balance` from src/main.rs. -/
inductive Balance where
  | Balanced
  | LeftHeavy
  | RightHeavy
  deriving DecidableEq, Repr

/-- `enum GameResult` from src/main.rs. -/
inductive GameResult where
  | Win
  | Lose
  deriving DecidableEq, Repr

/-- `enum ResultComparison` from src/main.rs. -/
inductive ResultComparison where
  | Same
  | Opposite
  | Balanced
  deriving DecidableEq, Repr

/-- `fn select_masses`: for each character of the upper-cased selection, if it
is alphabetic and some mass of the registry carries that name, push a clone of
the (first) such mass. -/
def select_masses (masses : List Mass) (selection : List Char) : List Mass :=
  (selection.map Char.toUpper).filterMap fun c =>
    if c.isAlpha then masses.find? (fun m => m.name == c) else none

/-- The per-mass summand of `fn weigh`: `Different` masses weigh 1 unit,
`Same` masses weigh 0. -/
def unit_weight (m : Mass) : Int :=
  match m.weight with
  | MassWeight.Different => 1
  | MassWeight.Same => 0

/-- `fn weigh`: sum the units on each side and compare. -/
def weigh (left right : List Mass) : Balance :=
  let left_weight : Int := (left.map unit_weight).sum
  let right_weight : Int := (right.map unit_weight).sum
  if left_weight > right_weight then Balance.LeftHeavy
  else if left_weight < right_weight then Balance.RightHeavy
  else Balance.Balanced

/-- `fn get_answer`: the names of the `Different` masses, in registry order. -/
def get_answer (masses : List Mass) : List Char :=
  masses.filterMap fun m =>
    if m.weight == MassWeight.Different then some m.name else none

/-- The labels produced by the Rust range loop over characters
in the closed range from letter A to letter L. -/
def mass_labels : List Char :=
  ['A', 'B', 'C', 'D', 'E', 'F', 'G', 'H', 'I', 'J', 'K', 'L']

/-- `fn setup_masses`: twelve masses labelled A..L, all `Same`, then the mass
at the randomly chosen index is set to `Different`.  The random index is an
explicit parameter here. -/
def setup_masses (index_of_different : Nat) : List Mass :=
  (List.range 12).map fun j =>
    { name := mass_labels.getD j ' ',
      weight :=
        if j = index_of_different then MassWeight.Different else MassWeight.Same }

/-- `fn compare_results`. -/
def compare_results (first second : Balance) : ResultComparison :=
  if second = Balance.Balanced then ResultComparison.Balanced
  else if first = second then ResultComparison.Same
  else ResultComparison.Opposite

/-- `fn ez_measure` (printing dropped): select both groups and weigh them. -/
def ez_measure (masses : List Mass) (left right : List Char) : Balance :=
  weigh (select_masses masses left) (select_masses masses right)

/-- The decision tree of `fn auto_solve`, returning the guessed label together
with the list of weighings (left labels, right labels) actually performed.
The unreachable `panic!("This should never happen!")` arm is modelled as
`none`. -/
def auto_run (masses : List Mass) : Option Char × List (List Char × List Char) :=
  let result_1 := ez_measure masses ['A', 'B', 'C', 'D'] ['E', 'F', 'G', 'H']
  match result_1 with
  | Balance.Balanced =>
    let result_2 := ez_measure masses ['I', 'J'] ['K', 'A']
    match result_2 with
    | Balance.Balanced =>
      (some 'L', [(['A', 'B', 'C', 'D'], ['E', 'F', 'G', 'H']), (['I', 'J'], ['K', 'A'])])
    | _ =>
      let result_3 := ez_measure masses ['J', 'K'] ['A', 'B']
      let trace := [(['A', 'B', 'C', 'D'], ['E', 'F', 'G', 'H']),
        (['I', 'J'], ['K', 'A']), (['J', 'K'], ['A', 'B'])]
      match compare_results result_2 result_3 with
      | ResultComparison.Balanced => (some 'I', trace)
      | ResultComparison.Same => (some 'J', trace)
      | ResultComparison.Opposite => (some 'K', trace)
  | _ =>
    let result_2 := ez_measure masses ['A', 'B', 'E'] ['C', 'D', 'F']
    match result_2 with
    | Balance.Balanced =>
      let result_3 := ez_measure masses ['G'] ['I']
      let trace := [(['A', 'B', 'C', 'D'], ['E', 'F', 'G', 'H']),
        (['A', 'B', 'E'], ['C', 'D', 'F']), (['G'], ['I'])]
      match result_3 with
      | Balance.Balanced => (some 'H', trace)
      | _ => (some 'G', trace)
    | _ =>
      let result_3 := ez_measure masses ['E', 'D'] ['F', 'B']
      let trace := [(['A', 'B', 'C', 'D'], ['E', 'F', 'G', 'H']),
        (['A', 'B', 'E'], ['C', 'D', 'F']), (['E', 'D'], ['F', 'B'])]
      match compare_results result_1 result_2, compare_results result_2 result_3 with
      | ResultComparison.Same, ResultComparison.Balanced => (some 'A', trace)
      | ResultComparison.Same, ResultComparison.Same => (some 'F', trace)
      | ResultComparison.Same, ResultComparison.Opposite => (some 'B', trace)
      | ResultComparison.Opposite, ResultComparison.Balanced => (some 'C', trace)
      | ResultComparison.Opposite, ResultComparison.Same => (some 'E', trace)
      | ResultComparison.Opposite, ResultComparison.Opposite => (some 'D', trace)
      | _, _ => (none, trace)

/-- Tail of `fn auto_solve`: compare the guessed label against
`answer.chars().next().unwrap()`.  Either panic (the decision-tree arm, or
`unwrap` on an empty answer) is modelled as `none`. -/
def auto_solve (masses : List Mass) : Option GameResult :=
  match (auto_run masses).1, (get_answer masses).head? with
  | some c, some a => some (if c = a then GameResult.Win else GameResult.Lose)
  | _, _ => none

/-- Rust `str::trim`, modelled on character lists. -/
def trim (s : List Char) : List Char :=
  ((s.dropWhile Char.isWhitespace).reverse.dropWhile Char.isWhitespace).reverse

/-- `fn guess`: the trimmed, upper-cased stdin line equals the answer string. -/
def guess (masses : List Mass) (input : List Char) : Bool :=
  (trim input).map Char.toUpper == get_answer masses

/-- The `while measurements > 0` loop of `fn manual_solve`: each iteration
consumes two input lines (left and right selection), weighs them, and
decrements the counter.  Returns the balance outcomes in order together with
the unconsumed input lines.  A missing line reads as the empty string, as
`read_line` at end of input leaves the buffer empty. -/
def manual_loop (masses : List Mass) : Nat → List (List Char) → List Balance × List (List Char)
  | 0, inputs => ([], inputs)
  | n + 1, inputs =>
    let left_side := select_masses masses (inputs.headD [])
    let right_side := select_masses masses ((inputs.drop 1).headD [])
    let balance := weigh left_side right_side
    let rest := manual_loop masses n (inputs.drop 2)
    (balance :: rest.1, rest.2)

/-- `fn manual_solve` (printing dropped), with the registry and the stdin
lines as explicit parameters: run the 3-iteration weighing loop, then read one
more line as the final guess. -/
def manual_solve (masses : List Mass) (inputs : List (List Char)) :
    List Balance × GameResult :=
  let run := manual_loop masses 3 inputs
  (run.1, if guess masses (run.2.headD []) then GameResult.Win else GameResult.Lose)

/-- Number of `Different`-weight masses in a group. -/
def count_different (g : List Mass) : Nat :=
  (g.filter fun m => m.weight == MassWeight.Different).length

theorem sum_unit_weight (g : List Mass) :
    (g.map unit_weight).sum = (count_different g : Int) := by
  induction g with
  | nil => rfl
  | cons m t ih =>
    cases hw : m.weight <;>
    · simp [unit_weight, count_different, List.filter_cons, hw]
      simp [count_different] at ih
      omega

/-- C1: for every one of the 12 possible odd-mass placements, the fixed
decision tree of `auto_solve` guesses exactly that placement's label and the
run ends in `Win`.  Determinism is inherent: `auto_run` and `auto_solve` are
pure functions of the registry, so the same placement always yields the same
weighings and verdict, including the J and K placements. -/
theorem auto_solve_round_trip :
    ∀ i : Fin 12,
      (auto_run (setup_masses i.val)).1 = some (mass_labels.getD i.val ' ') ∧
      auto_solve (setup_masses i.val) = some GameResult.Win := by
  decide

/-- C2: `weigh` returns `Balanced` iff both sides hold equally many
`Different`-weight masses, `LeftHeavy` iff the left side holds more, and
`RightHeavy` iff the right side holds more; two empty groups weigh
`Balanced`, and a lone `Different` mass on one side outweighs an empty other
side. -/
theorem weigh_spec (l r : List Mass) :
    (weigh l r = Balance.Balanced ↔ count_different l = count_different r) ∧
    (weigh l r = Balance.LeftHeavy ↔ count_different r < count_different l) ∧
    (weigh l r = Balance.RightHeavy ↔ count_different l < count_different r) ∧
    weigh [] [] = Balance.Balanced ∧
    weigh [⟨'Z', MassWeight.Different⟩] [] = Balance.LeftHeavy ∧
    weigh [] [⟨'Z', MassWeight.Different⟩] = Balance.RightHeavy := by
  have hl := sum_unit_weight l
  have hr := sum_unit_weight r
  refine ⟨?_, ?_, ?_, by decide, by decide, by decide⟩ <;>
    · simp only [weigh, hl, hr]
      split_ifs with h1 h2 <;> simp <;> omega

/-- C3: `compare_results` is `Balanced` exactly when its second argument is
`Balanced`, `Same` exactly when the second is unbalanced and equals the
first, and `Opposite` otherwise; in particular the three concrete instances
from the spec. -/
theorem compare_results_spec :
    ∀ x y : Balance,
      (compare_results x y = ResultComparison.Balanced ↔ y = Balance.Balanced) ∧
      (compare_results x y = ResultComparison.Same ↔
        (y ≠ Balance.Balanced ∧ x = y)) ∧
      (compare_results x y = ResultComparison.Opposite ↔
        (y ≠ Balance.Balanced ∧ x ≠ y)) ∧
      compare_results x Balance.Balanced = ResultComparison.Balanced ∧
      compare_results Balance.LeftHeavy Balance.LeftHeavy = ResultComparison.Same ∧
      compare_results Balance.LeftHeavy Balance.RightHeavy = ResultComparison.Opposite := by
  intro x y
  cases x <;> cases y <;> decide

/-- C4: for every registry whatsoever (in particular every registry of 12
masses with exactly one `Different` mass), the decision tree of `auto_solve`
never reaches the fatal arm: the guess is always `some` label, because in the
doubly-unbalanced branch the pair of outcome comparisons always falls in the
six matched combinations and its first component is never
`ResultComparison.Balanced`. -/
theorem auto_run_no_panic (masses : List Mass) :
    (auto_run masses).1.isSome = true := by
  simp only [auto_run]
  cases ez_measure masses ['A', 'B', 'C', 'D'] ['E', 'F', 'G', 'H'] <;>
    cases ez_measure masses ['I', 'J'] ['K', 'A'] <;>
      cases ez_measure masses ['A', 'B', 'E'] ['C', 'D', 'F'] <;>
        cases ez_measure masses ['J', 'K'] ['A', 'B'] <;>
          cases ez_measure masses ['G'] ['I'] <;>
            cases ez_measure masses ['E', 'D'] ['F', 'B'] <;> rfl

/-- C7: with 'F' as the `Different` mass (index 5), the three decision-tree
weighings all come out `RightHeavy` and the tree outputs 'F', winning. -/
theorem auto_solve_scenario_F :
    ez_measure (setup_masses 5) ['A', 'B', 'C', 'D'] ['E', 'F', 'G', 'H'] =
      Balance.RightHeavy ∧
    ez_measure (setup_masses 5) ['A', 'B', 'E'] ['C', 'D', 'F'] =
      Balance.RightHeavy ∧
    ez_measure (setup_masses 5) ['E', 'D'] ['F', 'B'] = Balance.RightHeavy ∧
    (auto_run (setup_masses 5)).1 = some 'F' ∧
    auto_solve (setup_masses 5) = some GameResult.Win := by
  decide

/-- C8: with 'L' as the `Different` mass (index 11), the first two weighings
are `Balanced` and the tree outputs 'L' after exactly those two weighings,
performing no third one. -/
theorem auto_solve_scenario_L :
    ez_measure (setup_masses 11) ['A', 'B', 'C', 'D'] ['E', 'F', 'G', 'H'] =
      Balance.Balanced ∧
    ez_measure (setup_masses 11) ['I', 'J'] ['K', 'A'] = Balance.Balanced ∧
    (auto_run (setup_masses 11)).1 = some 'L' ∧
    (auto_run (setup_masses 11)).2 =
      [(['A', 'B', 'C', 'D'], ['E', 'F', 'G', 'H']), (['I', 'J'], ['K', 'A'])] ∧
    (auto_run (setup_masses 11)).2.length = 2 := by
  decide

/-- C9: for every random index, `setup_masses` yields exactly 12 masses whose
names are the distinct labels A..L in order, with exactly one `Different`
mass and eleven `Same` ones.  (The registry is never mutated afterwards: in
this embedding every solver is a pure function of the registry.) -/
theorem setup_masses_spec :
    ∀ i : Fin 12,
      (setup_masses i.val).length = 12 ∧
      (setup_masses i.val).map Mass.name = mass_labels ∧
      mass_labels.Nodup ∧
      ((setup_masses i.val).filter fun m =>
        m.weight == MassWeight.Different).length = 1 ∧
      ((setup_masses i.val).filter fun m =>
        m.weight == MassWeight.Same).length = 11 := by
  decide

/-- C10: swapping the pans of `weigh` exchanges `LeftHeavy` and `RightHeavy`
and preserves `Balanced`; weighing a group against itself balances. -/
theorem weigh_swap (l r : List Mass) :
    (weigh l r = Balance.LeftHeavy ↔ weigh r l = Balance.RightHeavy) ∧
    (weigh l r = Balance.Balanced ↔ weigh r l = Balance.Balanced) ∧
    weigh l l = Balance.Balanced := by
  refine ⟨?_, ?_, ?_⟩ <;>
    · simp only [weigh]
      split_ifs <;> simp_all <;> omega

theorem select_masses_cons_none (masses : List Mass) (c : Char) (cs : List Char)
    (h : (if (c.toUpper).isAlpha then
        masses.find? (fun x => x.name == c.toUpper) else none) = none) :
    select_masses masses (c :: cs) = select_masses masses cs := by
  simp only [select_masses, List.map_cons, List.filterMap_cons, h]

theorem select_masses_cons_some (masses : List Mass) (c : Char) (cs : List Char)
    (m : Mass)
    (h : (if (c.toUpper).isAlpha then
        masses.find? (fun x => x.name == c.toUpper) else none) = some m) :
    select_masses masses (c :: cs) = m :: select_masses masses cs := by
  simp only [select_masses, List.map_cons, List.filterMap_cons, h]

theorem find?_name_eq_some_of_mem (masses : List Mass) (m : Mass)
    (hnodup : (masses.map Mass.name).Nodup) (hm : m ∈ masses) :
    masses.find? (fun x => x.name == m.name) = some m := by
  induction masses with
  | nil => cases hm
  | cons a t ih =>
    rw [List.map_cons, List.nodup_cons] at hnodup
    rcases List.mem_cons.mp hm with rfl | hm'
    · simp [List.find?]
    · have hne : (a.name == m.name) = false := by
        rw [beq_eq_false_iff_ne]
        intro h
        exact hnodup.1 (h ▸ List.mem_map_of_mem Mass.name hm')
      simp [List.find?, hne, ih hnodup.2 hm']

theorem select_masses_mem (masses : List Mass) (sel : List Char) :
    ∀ x ∈ select_masses masses sel, x ∈ masses := by
  intro x hx
  simp only [select_masses, List.mem_filterMap] at hx
  obtain ⟨c, _, hc⟩ := hx
  by_cases ha : c.isAlpha
  · rw [if_pos ha] at hc
    exact List.mem_of_find?_eq_some hc
  · rw [if_neg ha] at hc
    cases hc

/-- C5 counterexample: on the standard registry, the selection "Aa" puts the
mass named 'A' into the selected group twice — duplicate labels are not
dropped, contradicting the claim that each mass of the registry occurs at
most once in the returned group. -/
theorem select_masses_duplicates_kept :
    Mass.mk 'A' MassWeight.Different ∈ setup_masses 0 ∧
    ¬ (∀ x ∈ setup_masses 0,
        (select_masses (setup_masses 0) ['A', 'a']).count x ≤ 1) ∧
    (select_masses (setup_masses 0) ['A', 'a']).count
      (Mass.mk 'A' MassWeight.Different) = 2 := by
  decide

/-- C5 (amended): `select_masses` is case-insensitive and ignores non-letter
characters and letters naming no mass, so every selected mass comes from the
registry; but duplicate labels are NOT dropped: each occurrence of a label in
the selection contributes one copy of the mass, so (for a registry with
distinct upper-case names) a mass occurs in the output exactly as many times
as its name occurs in the upper-cased selection. -/
theorem select_masses_spec (masses : List Mass) (sel : List Char) (m : Mass)
    (hnodup : (masses.map Mass.name).Nodup)
    (hupper : ∀ x ∈ masses, (Mass.name x).isUpper)
    (hm : m ∈ masses) :
    (∀ x ∈ select_masses masses sel, x ∈ masses) ∧
    (select_masses masses sel).count m = (sel.map Char.toUpper).count m.name := by
  refine ⟨select_masses_mem masses sel, ?_⟩
  induction sel with
  | nil => rfl
  | cons c cs ih =>
    have halpha : (m.name).isAlpha := by
      have := hupper m hm
      simp [Char.isAlpha, this]
    by_cases ha : (c.toUpper).isAlpha
    · rcases hfind : masses.find? (fun x => x.name == c.toUpper) with _ | m'
      · have hne : c.toUpper ≠ m.name := by
          intro h
          rw [h, find?_name_eq_some_of_mem masses m hnodup hm] at hfind
          cases hfind
        rw [select_masses_cons_none masses c cs (by rw [if_pos ha]; exact hfind)]
        simp [List.count_cons, hne, ih]
      · by_cases heq : m' = m
        · subst heq
          have hname : m'.name = c.toUpper := by
            have := List.find?_some hfind
            exact eq_of_beq this
          rw [select_masses_cons_some masses c cs m'
            (by rw [if_pos ha]; exact hfind)]
          simp [List.count_cons, hname, ih]
        · have hne : c.toUpper ≠ m.name := by
            intro h
            rw [h, find?_name_eq_some_of_mem masses m hnodup hm] at hfind
            exact heq (Option.some.inj hfind).symm
          rw [select_masses_cons_some masses c cs m'
            (by rw [if_pos ha]; exact hfind)]
          simp [List.count_cons, hne, heq, ih]
    · have hne : c.toUpper ≠ m.name := by
        intro h
        rw [h] at ha
        exact ha halpha
      rw [select_masses_cons_none masses c cs (by rw [if_neg ha])]
      simp [List.count_cons, hne, ih]

theorem select_masses_spec_witness :
    ((setup_masses 0).map Mass.name).Nodup ∧
    (∀ x ∈ setup_masses 0, (Mass.name x).isUpper) ∧
    Mass.mk 'A' MassWeight.Different ∈ setup_masses 0 ∧
    ((∀ x ∈ select_masses (setup_masses 0) ['a', '?', 'a'], x ∈ setup_masses 0) ∧
      (select_masses (setup_masses 0) ['a', '?', 'a']).count
          (Mass.mk 'A' MassWeight.Different) =
        ((['a', '?', 'a']).map Char.toUpper).count
          (Mass.mk 'A' MassWeight.Different).name) :=
  ⟨by decide, by decide, by decide,
    select_masses_spec (setup_masses 0) ['a', '?', 'a']
      (Mass.mk 'A' MassWeight.Different) (by decide) (by decide) (by decide)⟩

theorem manual_loop_length (masses : List Mass) (n : Nat)
    (inputs : List (List Char)) :
    (manual_loop masses n inputs).1.length = n := by
  induction n generalizing inputs with
  | zero => rfl
  | succ k ih => simp [manual_loop, ih]

theorem manual_loop_rest (masses : List Mass) (n : Nat)
    (inputs : List (List Char)) :
    (manual_loop masses n inputs).2 = inputs.drop (2 * n) := by
  induction n generalizing inputs with
  | zero => rfl
  | succ k ih =>
    simp [manual_loop, ih, List.drop_drop, Nat.mul_succ]
    congr 1
    omega

theorem get_answer_setup :
    ∀ i : Fin 12,
      get_answer (setup_masses i.val) = [mass_labels.getD i.val ' '] := by
  decide

/-- C6: for every odd-mass placement and every sequence of stdin lines,
`manual_solve` performs exactly 3 weighings (the counter starts at 3 and
decrements once per iteration until 0), then reads one more line as the
guess; it returns `Win` iff the trimmed, upper-cased guess equals the odd
mass's (upper-case) label — i.e. matches case-insensitively — and `Lose`
otherwise. -/
theorem manual_solve_spec (i : Fin 12) (inputs : List (List Char)) :
    (manual_solve (setup_masses i.val) inputs).1.length = 3 ∧
    ((manual_solve (setup_masses i.val) inputs).2 = GameResult.Win ↔
      (trim ((inputs.drop 6).headD [])).map Char.toUpper =
        [mass_labels.getD i.val ' ']) := by
  have h1 := manual_loop_length (setup_masses i.val) 3 inputs
  have h2 := manual_loop_rest (setup_masses i.val) 3 inputs
  norm_num at h2
  have hans := get_answer_setup i
  constructor
  · simpa [manual_solve] using h1
  · simp only [manual_solve, h2]
    split_ifs with h
    · simp only [guess, hans, beq_iff_eq] at h
      simpa using h
    · simp only [guess, hans, beq_iff_eq] at h
      simpa using h

end TechnoWeights
